import Mathlib

/-!
Shallow embedding of the diffusion schedule and sampler from the DDPM
notebook (`35_denoising_diffusion.ipynb`).  Machine floats are modelled by
real numbers; `numpy`'s elementwise `** 0.5` on the nonnegative quantities
appearing here is `Real.sqrt`.  Lists model one-dimensional numpy arrays,
and tensors are modelled as real-valued functions on an arbitrary pixel
index type `ι` (every tensor operation in the sampler is pointwise; the
external model is kept opaque as a function on whole tensors).
-/

namespace DDPM

noncomputable section

/-- Elementwise `np.clip(x, lo, hi) = min (max x lo) hi`. -/
def np_clip (x lo hi : ℝ) : ℝ := min (max x lo) hi

/-- Helper for `np.cumprod`: running product with accumulator `acc`. -/
def cumprodAux (acc : ℝ) : List ℝ → List ℝ
  | [] => []
  | x :: xs => (acc * x) :: cumprodAux (acc * x) xs

/-- Embedding of `np.cumprod`: `cumprod l` has the same length as `l` and its
`i`-th entry is the product of the first `i+1` entries of `l`. -/
def cumprod (l : List ℝ) : List ℝ := cumprodAux 1 l

/-- The cosine-schedule shape function from `variance_schedule`:
`f = np.cos((t / T + s) / (1 + s) * np.pi / 2) ** 2`, evaluated at index `k`. -/
def sched_f (T : ℕ) (s : ℝ) (k : ℕ) : ℝ :=
  Real.cos (((k : ℝ) / (T : ℝ) + s) / (1 + s) * (Real.pi / 2)) ^ 2

/-- The `alpha` array built inside `variance_schedule` (cosine policy):
`alpha = np.clip(f[1:] / f[:-1], 1 - max_beta, 1)` with `1` prepended
(`np.append(1, alpha)`); entry `k + 1` is the clipped ratio `f[k+1] / f[k]`. -/
def variance_alpha (T : ℕ) (s max_beta : ℝ) : List ℝ :=
  1 :: (List.range T).map
    (fun k => np_clip (sched_f T s (k + 1) / sched_f T s k) (1 - max_beta) 1)

/-- Embedding of the notebook's `variance_schedule(T, s, max_beta)`:
returns `(alpha, alpha_cumprod, beta)` with `beta = 1 - alpha` and
`alpha_cumprod = np.cumprod(alpha)`. -/
def variance_schedule (T : ℕ) (s max_beta : ℝ) : List ℝ × List ℝ × List ℝ :=
  (variance_alpha T s max_beta, cumprod (variance_alpha T s max_beta),
    (variance_alpha T s max_beta).map (fun a => 1 - a))

/-- The `alpha` array built inside `linear_schedule`: `step_scale = 0.005` is
hardcoded, `f = 1 - step_scale * t / T` is computed for `t = 0..T`, clipped,
and then `1` is prepended.  The clipped array already has `T + 1` entries, so
this list has `T + 2`. -/
def linear_alpha (T : ℕ) (max_beta : ℝ) : List ℝ :=
  1 :: (List.range (T + 1)).map
    (fun (k : ℕ) => np_clip (1 - (5 / 1000) * (k : ℝ) / (T : ℝ)) (1 - max_beta) 1)

/-- Embedding of the notebook's `linear_schedule(T, s, max_beta)`: returns
`(alpha, alpha_cumprod, beta)` built from `linear_alpha`.  The parameter `s`
is accepted and ignored, as in the source. -/
def linear_schedule (T : ℕ) (_s max_beta : ℝ) : List ℝ × List ℝ × List ℝ :=
  (linear_alpha T max_beta, cumprod (linear_alpha T max_beta),
    (linear_alpha T max_beta).map (fun a => 1 - a))

/-- Pixel scaling at the top of `prepare_batch`: `X * 2 - 1`. -/
def scale_pixel (x : ℝ) : ℝ := x * 2 - 1

/-- The closed-form forward-corruption blend from `prepare_batch`:
`alpha_cm ** 0.5 * X + (1 - alpha_cm) ** 0.5 * noise`, with
`alpha_cm = alpha_cumprod[t]` gathered per sample. -/
def corrupt (alpha_cumprod : List ℝ) (t : ℕ) (x noise : ℝ) : ℝ :=
  Real.sqrt (alpha_cumprod.getD t 0) * x +
    Real.sqrt (1 - alpha_cumprod.getD t 0) * noise

/-- The set of values `tf.random.uniform([n], minval=1, maxval=T + 1,
dtype=tf.int32)` can draw for a time step: integers in `[1, T]`
(`maxval` is exclusive). -/
def t_draw_support (T : ℕ) : Finset ℕ := Finset.Icc 1 T

/-- One pixel of the `X_noisy` output of `prepare_batch`: the input pixel is
scaled to `[-1, 1]` and then blended with the noise by `corrupt`. -/
def prepare_batch_noisy (alpha_cumprod : List ℝ) (x : ℝ) (t : ℕ) (noise : ℝ) : ℝ :=
  corrupt alpha_cumprod t (scale_pixel x) noise

/-- Embedding of the notebook's `subtract_noise(X_noisy, time, noise)`:
`(X_noisy - (1 - alpha_cm) ** 0.5 * noise) / alpha_cm ** 0.5`. -/
def subtract_noise (alpha_cumprod : List ℝ) (t : ℕ) (x_noisy noise : ℝ) : ℝ :=
  (x_noisy - Real.sqrt (1 - alpha_cumprod.getD t 0) * noise) /
    Real.sqrt (alpha_cumprod.getD t 0)

/-- Embedding of the sinusoidal table built in `TimeEncoding.__init__`:
entry `(t, c)` is `sin(t / 10000 ^ (i / embed_size))` for even columns and
`cos(t / 10000 ^ (i / embed_size))` for odd columns, where `i = 2 * (c / 2)`
is the meshgrid frequency index attached to column `c`. -/
def time_encodings (T embed_size : ℕ) : List (List ℝ) :=
  (List.range (T + 1)).map fun (t : ℕ) =>
    (List.range embed_size).map fun (c : ℕ) =>
      let i : ℕ := 2 * (c / 2)
      if c % 2 = 0 then
        Real.sin ((t : ℝ) / (10000 : ℝ) ^ ((i : ℝ) / (embed_size : ℝ)))
      else
        Real.cos ((t : ℝ) / (10000 : ℝ) ^ ((i : ℝ) / (embed_size : ℝ)))

/-- Result of running `TimeEncoding.__init__`: the body starts with
`assert embed_size % 2 == 0`, which raises (models as `Except.error`) for odd
`embed_size` and otherwise builds the sinusoidal table. -/
def TimeEncoding_init (T embed_size : ℕ) : Except String (List (List ℝ)) :=
  if embed_size % 2 = 0 then Except.ok (time_encodings T embed_size)
  else Except.error "embed_size must be even"

/-- Run wrapper for `variance_schedule` recording its exception behaviour:
the body contains no `assert` or `raise` and every numpy operation in it
returns normally for every input (invalid values only emit runtime warnings,
which do not raise), so the call always returns `Except.ok`. -/
def variance_schedule_run (T : ℕ) (s max_beta : ℝ) :
    Except String (List ℝ × List ℝ × List ℝ) :=
  Except.ok (variance_schedule T s max_beta)

/-- Whether an `Except` computation returned normally. -/
def exceptOk {α : Type} : Except String α → Bool
  | Except.ok _ => true
  | Except.error _ => false

/-- One reverse-sampling update from `generate`:
`X = 1 / alpha[t] ** 0.5 * (X - beta[t] / (1 - alpha_cumprod[t]) ** 0.5 * X_noise)
  + (1 - alpha[t]) ** 0.5 * noise`, applied pointwise to each pixel `p`. -/
def reverse_update {ι : Type} (alpha alpha_cumprod beta : List ℝ) (t : ℕ)
    (X noise_pred z : ι → ℝ) : ι → ℝ :=
  fun p =>
    1 / Real.sqrt (alpha.getD t 0) *
        (X p - beta.getD t 0 / Real.sqrt (1 - alpha_cumprod.getD t 0) * noise_pred p) +
      Real.sqrt (1 - alpha.getD t 0) * z p

/-- One loop iteration of `generate` at time `t`: draw
`noise = (tf.random.normal if t > 1 else tf.zeros)(...)` (the fresh normal
draw is modelled by `zdraw t`), query the model, and apply `reverse_update`. -/
def gen_step {ι : Type} (alpha alpha_cumprod beta : List ℝ)
    (model : (ι → ℝ) → ℕ → ι → ℝ) (zdraw : ℕ → ι → ℝ)
    (X : ι → ℝ) (t : ℕ) : ι → ℝ :=
  reverse_update alpha alpha_cumprod beta t X (model X t)
    (if 1 < t then zdraw t else fun _ => 0)

/-- Embedding of the notebook's `generate`: starting from `X_start` (the
`tf.random.normal` draw), fold `gen_step` over
`range(T - 1, 0, -1) = [T-1, ..., 1]` and return the final `X`. -/
def generate {ι : Type} (alpha alpha_cumprod beta : List ℝ)
    (model : (ι → ℝ) → ℕ → ι → ℝ) (zdraw : ℕ → ι → ℝ)
    (X_start : ι → ℝ) (T : ℕ) : ι → ℝ :=
  (((List.range (T - 1)).map (fun k => k + 1)).reverse).foldl
    (gen_step alpha alpha_cumprod beta model zdraw) X_start

/-- Modelled from the spec wording of the reverse sampler, for comparison
with the source's `generate`: iterate `t` from `T - 1` down to `1` (the
argument is the current `t`), at each step updating `X` to
`(1 / sqrt (alpha[t])) * (X - beta[t] / sqrt (1 - alpha_bar[t]) * noise_pred)
 + sqrt (1 - alpha[t]) * z`, where `z` is the fresh Gaussian draw if `t > 1`
and the zero tensor on the final `t = 1` step. -/
def generate_spec_rec {ι : Type} (alpha alpha_cumprod beta : List ℝ)
    (model : (ι → ℝ) → ℕ → ι → ℝ) (zdraw : ℕ → ι → ℝ) :
    ℕ → (ι → ℝ) → ι → ℝ
  | 0, X => X
  | t + 1, X =>
    generate_spec_rec alpha alpha_cumprod beta model zdraw t
      (reverse_update alpha alpha_cumprod beta (t + 1) X (model X (t + 1))
        (if 1 < t + 1 then zdraw (t + 1) else fun _ => 0))

/-- The `alpha_bar` invariants claimed by the spec for a computed schedule
`(alpha, alpha_cumprod, beta)`: `alpha_bar[0] = 1`, the running-product
recurrence `alpha_bar[t] = alpha_bar[t-1] * alpha[t]` for `t ≥ 1`,
monotone non-increase, and membership in `(0, 1]`. -/
def schedule_invariants (sched : List ℝ × List ℝ × List ℝ) : Prop :=
  sched.2.1.getD 0 0 = 1 ∧
  (∀ t, 1 ≤ t → t < sched.2.1.length →
    sched.2.1.getD t 0 = sched.2.1.getD (t - 1) 0 * sched.1.getD t 0) ∧
  (∀ t, t + 1 < sched.2.1.length → sched.2.1.getD (t + 1) 0 ≤ sched.2.1.getD t 0) ∧
  (∀ t, t < sched.2.1.length → 0 < sched.2.1.getD t 0 ∧ sched.2.1.getD t 0 ≤ 1)

/-! Helper lemmas about `cumprod`, list indexing and `np_clip`. -/

lemma cumprodAux_length (l : List ℝ) : ∀ acc : ℝ, (cumprodAux acc l).length = l.length := by
  induction l with
  | nil => intro acc; rfl
  | cons x xs ih => intro acc; simp [cumprodAux, ih]

lemma cumprod_length (l : List ℝ) : (cumprod l).length = l.length :=
  cumprodAux_length l 1

lemma cumprodAux_getD (l : List ℝ) :
    ∀ (acc : ℝ) (i : ℕ), i < l.length →
      (cumprodAux acc l).getD i 0 = acc * (l.take (i + 1)).prod := by
  induction l with
  | nil => intro acc i hi; simp at hi
  | cons x xs ih =>
    intro acc i hi
    cases i with
    | zero => simp [cumprodAux]
    | succ j =>
      have hj : j < xs.length := by simpa using hi
      simp only [cumprodAux, List.getD_cons_succ, List.take_succ_cons, List.prod_cons]
      rw [ih (acc * x) j hj]
      ring

lemma cumprod_getD (l : List ℝ) (i : ℕ) (hi : i < l.length) :
    (cumprod l).getD i 0 = (l.take (i + 1)).prod := by
  rw [cumprod, cumprodAux_getD l 1 i hi, one_mul]

lemma prod_pos_le_one (l : List ℝ) (hmem : ∀ x ∈ l, 0 < x ∧ x ≤ 1) :
    0 < l.prod ∧ l.prod ≤ 1 := by
  induction l with
  | nil => simp
  | cons x xs ih =>
    have hx := hmem x (by simp)
    have hxs := ih (fun y hy => hmem y (by simp [hy]))
    refine ⟨by simp only [List.prod_cons]; exact mul_pos hx.1 hxs.1, ?_⟩
    simp only [List.prod_cons]
    nlinarith [hx.1, hx.2, hxs.1, hxs.2]

lemma prefix_prod_le (l : List ℝ) (hmem : ∀ x ∈ l, 0 < x ∧ x ≤ 1)
    (i j : ℕ) (hij : i ≤ j) : (l.take j).prod ≤ (l.take i).prod := by
  have hmem_take : ∀ n, ∀ x ∈ l.take n, 0 < x ∧ x ≤ 1 := by
    intro n x hx; exact hmem x (List.take_subset n l hx)
  obtain ⟨k, rfl⟩ := Nat.exists_eq_add_of_le hij
  rw [List.take_add]
  rw [List.prod_append]
  have h1 := prod_pos_le_one (l.take i) (hmem_take i)
  have h2 : 0 < ((l.drop i).take k).prod ∧ ((l.drop i).take k).prod ≤ 1 := by
    refine prod_pos_le_one _ (fun x hx => ?_)
    exact hmem x (List.drop_subset i l (List.take_subset k (l.drop i) hx))
  nlinarith [h1.1, h2.1, h2.2]

lemma getD_map_range {α : Type} (f : ℕ → α) (d : α) (n k : ℕ) (hk : k < n) :
    ((List.range n).map f).getD k d = f k := by
  rw [List.getD_eq_getElem _ _ (by simpa using hk)]
  simp

lemma getD_map_one_sub (l : List ℝ) (t : ℕ) (ht : t < l.length) :
    (l.map (fun a => 1 - a)).getD t 0 = 1 - l.getD t 0 := by
  rw [List.getD_eq_getElem _ _ (by simpa using ht), List.getD_eq_getElem _ _ ht]
  simp

lemma np_clip_bounds (x lo : ℝ) (h0 : 0 < lo) (h1 : lo ≤ 1) :
    lo ≤ np_clip x lo 1 ∧ 0 < np_clip x lo 1 ∧ np_clip x lo 1 ≤ 1 := by
  unfold np_clip
  refine ⟨le_min (le_max_right x lo) h1, ?_, min_le_right _ _⟩
  exact lt_of_lt_of_le h0 (le_min (le_max_right x lo) h1)

lemma np_clip_lt_one (x lo : ℝ) (hx : x < 1) (hlo : lo < 1) :
    np_clip x lo 1 < 1 := by
  unfold np_clip
  exact lt_of_le_of_lt (min_le_left _ _) (max_lt hx hlo)

/-! Basic facts about the two schedules' `alpha` arrays. -/

lemma var_alpha_length (T : ℕ) (s mb : ℝ) :
    (variance_alpha T s mb).length = T + 1 := by
  simp [variance_alpha]

lemma lin_alpha_length (T : ℕ) (mb : ℝ) :
    (linear_alpha T mb).length = T + 2 := by
  simp [linear_alpha]

lemma var_alpha_getD_zero (T : ℕ) (s mb : ℝ) :
    (variance_alpha T s mb).getD 0 0 = 1 := rfl

lemma lin_alpha_getD_zero (T : ℕ) (mb : ℝ) :
    (linear_alpha T mb).getD 0 0 = 1 := rfl

lemma var_alpha_getD_succ (T : ℕ) (s mb : ℝ) (k : ℕ) (hk : k < T) :
    (variance_alpha T s mb).getD (k + 1) 0 =
      np_clip (sched_f T s (k + 1) / sched_f T s k) (1 - mb) 1 := by
  show ((List.range T).map _).getD k 0 = _
  rw [getD_map_range _ _ _ _ hk]

lemma lin_alpha_getD_succ (T : ℕ) (mb : ℝ) (k : ℕ) (hk : k < T + 1) :
    (linear_alpha T mb).getD (k + 1) 0 =
      np_clip (1 - (5 / 1000) * (k : ℝ) / (T : ℝ)) (1 - mb) 1 := by
  show ((List.range (T + 1)).map
    (fun (k : ℕ) => np_clip (1 - (5 / 1000) * (k : ℝ) / (T : ℝ)) (1 - mb) 1)).getD k 0 = _
  rw [getD_map_range _ _ _ _ hk]

lemma var_alpha_mem (T : ℕ) (s mb : ℝ) (h0 : 0 < mb) (h1 : mb < 1) :
    ∀ x ∈ variance_alpha T s mb, 0 < x ∧ x ≤ 1 := by
  intro x hx
  have hlo0 : (0 : ℝ) < 1 - mb := by linarith
  have hlo1 : (1 : ℝ) - mb ≤ 1 := by linarith
  simp only [variance_alpha, List.mem_cons, List.mem_map, List.mem_range] at hx
  rcases hx with rfl | ⟨k, _, rfl⟩
  · exact ⟨one_pos, le_refl 1⟩
  · exact ⟨(np_clip_bounds _ _ hlo0 hlo1).2.1, (np_clip_bounds _ _ hlo0 hlo1).2.2⟩

lemma lin_alpha_mem (T : ℕ) (mb : ℝ) (h0 : 0 < mb) (h1 : mb < 1) :
    ∀ x ∈ linear_alpha T mb, 0 < x ∧ x ≤ 1 := by
  intro x hx
  have hlo0 : (0 : ℝ) < 1 - mb := by linarith
  have hlo1 : (1 : ℝ) - mb ≤ 1 := by linarith
  simp only [linear_alpha, List.mem_cons, List.mem_map, List.mem_range] at hx
  rcases hx with rfl | ⟨k, _, rfl⟩
  · exact ⟨one_pos, le_refl 1⟩
  · exact ⟨(np_clip_bounds _ _ hlo0 hlo1).2.1, (np_clip_bounds _ _ hlo0 hlo1).2.2⟩

/-! Generic invariants of `cumprod` over an `alpha` array with head `1` and
entries in `(0, 1]`. -/

lemma cumprod_getD_zero (l : List ℝ) (x : ℝ) (hx : l.getD 0 0 = x) (hl : 0 < l.length) :
    (cumprod l).getD 0 0 = x := by
  rw [cumprod_getD l 0 hl]
  cases l with
  | nil => simp at hl
  | cons a as => simpa using hx

lemma cumprod_recurrence (l : List ℝ) (t : ℕ) (ht1 : 1 ≤ t) (ht2 : t < l.length) :
    (cumprod l).getD t 0 = (cumprod l).getD (t - 1) 0 * l.getD t 0 := by
  obtain ⟨k, rfl⟩ := Nat.exists_eq_add_of_le ht1
  have hk : k < l.length := by omega
  have hk1 : 1 + k = k + 1 := by omega
  rw [hk1]
  simp only [Nat.add_sub_cancel]
  rw [cumprod_getD l (k + 1) (by omega), cumprod_getD l k hk]
  rw [List.prod_take_succ l (k + 1) (by omega), List.getD_eq_getElem l 0 (by omega)]

lemma cumprod_bounds (l : List ℝ) (hmem : ∀ x ∈ l, 0 < x ∧ x ≤ 1)
    (t : ℕ) (ht : t < l.length) :
    0 < (cumprod l).getD t 0 ∧ (cumprod l).getD t 0 ≤ 1 := by
  rw [cumprod_getD l t ht]
  exact prod_pos_le_one _ (fun x hx => hmem x (List.take_subset _ l hx))

lemma cumprod_antitone (l : List ℝ) (hmem : ∀ x ∈ l, 0 < x ∧ x ≤ 1)
    (i j : ℕ) (hij : i ≤ j) (hj : j < l.length) :
    (cumprod l).getD j 0 ≤ (cumprod l).getD i 0 := by
  rw [cumprod_getD l j hj, cumprod_getD l i (lt_of_le_of_lt hij hj)]
  exact prefix_prod_le l hmem (i + 1) (j + 1) (by omega)

/-! Analytic facts about the cosine shape function, needed to show the first
cosine ratio `f(1) / f(0)` is strictly below `1`. -/

lemma sched_f_ratio_lt_one (T : ℕ) (s : ℝ) (hT : 1 ≤ T) (hs : 0 ≤ s) :
    sched_f T s 1 / sched_f T s 0 < 1 := by
  have hTR : (1 : ℝ) ≤ (T : ℝ) := by exact_mod_cast hT
  have hTpos : (0 : ℝ) < (T : ℝ) := by linarith
  have hs1 : (0 : ℝ) < 1 + s := by linarith
  have hpi := Real.pi_pos
  unfold sched_f
  simp only [Nat.cast_zero, Nat.cast_one, zero_div, zero_add]
  set u : ℝ := s / (1 + s) * (Real.pi / 2) with hu
  set v : ℝ := (1 / (T : ℝ) + s) / (1 + s) * (Real.pi / 2) with hv
  have hu0 : 0 ≤ u := by
    rw [hu]
    have := div_nonneg hs hs1.le
    nlinarith
  have hu2 : u < Real.pi / 2 := by
    rw [hu]
    have hr : s / (1 + s) < 1 := (div_lt_one hs1).mpr (by linarith)
    nlinarith
  have hv2 : v ≤ Real.pi / 2 := by
    rw [hv]
    have h1T : 1 / (T : ℝ) ≤ 1 := by
      rw [div_le_one hTpos]; exact hTR
    have hr : (1 / (T : ℝ) + s) / (1 + s) ≤ 1 := by
      rw [div_le_one hs1]; linarith
    nlinarith
  have huv : u < v := by
    rw [hu, hv]
    have h1T : 0 < 1 / (T : ℝ) := by positivity
    have hr : s / (1 + s) < (1 / (T : ℝ) + s) / (1 + s) :=
      div_lt_div_of_pos_right (by linarith) hs1
    nlinarith
  have hcoslt : Real.cos v < Real.cos u :=
    Real.cos_lt_cos_of_nonneg_of_le_pi hu0 (by linarith) huv
  have hcosvn : 0 ≤ Real.cos v :=
    Real.cos_nonneg_of_mem_Icc ⟨by linarith, hv2⟩
  have hcosup : 0 < Real.cos u :=
    Real.cos_pos_of_mem_Ioo ⟨by linarith, hu2⟩
  have hsq : Real.cos v ^ 2 < Real.cos u ^ 2 := by nlinarith
  have hupos : 0 < Real.cos u ^ 2 := pow_pos hcosup 2
  exact (div_lt_one hupos).mpr hsq

lemma var_alpha_one_lt_one (T : ℕ) (s mb : ℝ) (hT : 1 ≤ T) (hs : 0 ≤ s)
    (h0 : 0 < mb) : (variance_alpha T s mb).getD 1 0 < 1 := by
  show (variance_alpha T s mb).getD (0 + 1) 0 < 1
  rw [var_alpha_getD_succ T s mb 0 (by omega)]
  exact np_clip_lt_one _ _ (sched_f_ratio_lt_one T s hT hs) (by linarith)

lemma var_abar_lt_one (T : ℕ) (s mb : ℝ) (hT : 1 ≤ T) (hs : 0 ≤ s)
    (h0 : 0 < mb) (h1 : mb < 1) (t : ℕ) (ht1 : 1 ≤ t) (ht2 : t ≤ T) :
    (cumprod (variance_alpha T s mb)).getD t 0 < 1 := by
  have hmem := var_alpha_mem T s mb h0 h1
  have hlen := var_alpha_length T s mb
  have hanti := cumprod_antitone _ hmem 1 t ht1 (by omega)
  have hrec := cumprod_recurrence (variance_alpha T s mb) 1 (le_refl 1) (by omega)
  simp only [Nat.sub_self] at hrec
  have h00 : (cumprod (variance_alpha T s mb)).getD 0 0 = 1 :=
    cumprod_getD_zero _ 1 rfl (by omega)
  have ha1 := var_alpha_one_lt_one T s mb hT hs h0
  calc (cumprod (variance_alpha T s mb)).getD t 0
      ≤ (cumprod (variance_alpha T s mb)).getD 1 0 := hanti
    _ = 1 * (variance_alpha T s mb).getD 1 0 := by rw [hrec, h00]
    _ < 1 := by rw [one_mul]; exact ha1

/-! Helper lemmas about the reverse-sampling loop. -/

lemma range_succ_map_reverse (n : ℕ) :
    (((List.range (n + 1)).map (fun k => k + 1)).reverse) =
      (n + 1) :: ((List.range n).map (fun k => k + 1)).reverse := by
  rw [List.range_succ]
  simp

lemma gen_foldl_eq_rec {ι : Type} (alpha alpha_cumprod beta : List ℝ)
    (model : (ι → ℝ) → ℕ → ι → ℝ) (zdraw : ℕ → ι → ℝ) :
    ∀ (n : ℕ) (X : ι → ℝ),
      (((List.range n).map (fun k => k + 1)).reverse).foldl
          (gen_step alpha alpha_cumprod beta model zdraw) X =
        generate_spec_rec alpha alpha_cumprod beta model zdraw n X := by
  intro n
  induction n with
  | zero => intro X; rfl
  | succ n ih =>
    intro X
    rw [range_succ_map_reverse, List.foldl_cons, ih]
    rfl

lemma spec_rec_zero_pred {ι : Type} (alpha alpha_cumprod beta : List ℝ) :
    ∀ (n : ℕ) (X : ι → ℝ) (p : ι),
      generate_spec_rec alpha alpha_cumprod beta
          (fun _ _ _ => 0) (fun _ _ => 0) n X p =
        (∏ t ∈ Finset.Icc 1 n, 1 / Real.sqrt (alpha.getD t 0)) * X p := by
  intro n
  induction n with
  | zero => intro X p; simp [generate_spec_rec]
  | succ n ih =>
    intro X p
    have hstep : generate_spec_rec alpha alpha_cumprod beta
        (fun _ _ _ => 0) (fun _ _ => 0) (n + 1) X p =
        generate_spec_rec alpha alpha_cumprod beta
          (fun _ _ _ => 0) (fun _ _ => 0) n
          (fun q => 1 / Real.sqrt (alpha.getD (n + 1) 0) * X q) p := by
      show generate_spec_rec alpha alpha_cumprod beta
          (fun _ _ _ => 0) (fun _ _ => 0) n
          (reverse_update alpha alpha_cumprod beta (n + 1) X _ _) p = _
      congr 1
      funext q
      unfold reverse_update
      split <;> ring
    rw [hstep, ih]
    rw [Finset.prod_Icc_succ_top (by omega : 1 ≤ n + 1)]
    ring

lemma schedule_invariants_of_alpha (alpha : List ℝ) (h0 : alpha.getD 0 0 = 1)
    (hlen : 0 < alpha.length) (hmem : ∀ x ∈ alpha, 0 < x ∧ x ≤ 1) :
    schedule_invariants (alpha, cumprod alpha, alpha.map (fun a => 1 - a)) := by
  refine ⟨cumprod_getD_zero _ 1 h0 hlen, ?_, ?_, ?_⟩
  · intro t ht1 ht2
    rw [cumprod_length] at ht2
    exact cumprod_recurrence _ t ht1 ht2
  · intro t ht
    rw [cumprod_length] at ht
    exact cumprod_antitone _ hmem t (t + 1) (by omega) ht
  · intro t ht
    rw [cumprod_length] at ht
    exact cumprod_bounds _ hmem t ht

/-! The claim theorems. -/

/-- C1: for every `T ≥ 1` and schedule of length `T + 1`, the reverse
sampler `generate` starts from the supplied Gaussian draw and iterates
`t` from `T - 1` down to `1`, at each step updating `X` to
`(1 / sqrt (alpha[t])) * (X - beta[t] / sqrt (1 - alpha_bar[t]) * noise_pred)
 + sqrt (1 - alpha[t]) * z` with `noise_pred` the external model's
prediction at `(X, t)` and `z` the fresh normal draw if `t > 1` and the
zero tensor at `t = 1`:  `generate` coincides with the downward recursion
`generate_spec_rec` written from exactly that description. -/
theorem c1_generate_matches_spec {ι : Type} (alpha alpha_cumprod beta : List ℝ)
    (model : (ι → ℝ) → ℕ → ι → ℝ) (zdraw : ℕ → ι → ℝ) (X_start : ι → ℝ)
    (T : ℕ) (hT : 1 ≤ T) (ha : alpha.length = T + 1)
    (hab : alpha_cumprod.length = T + 1) (hb : beta.length = T + 1) :
    generate alpha alpha_cumprod beta model zdraw X_start T =
      generate_spec_rec alpha alpha_cumprod beta model zdraw (T - 1) X_start :=
  gen_foldl_eq_rec alpha alpha_cumprod beta model zdraw (T - 1) X_start

/-- Witness for C1 at `T = 2` with a constant-zero model on a one-pixel
tensor type. -/
theorem c1_generate_matches_spec_witness :
    1 ≤ 2 ∧ ([(1 : ℝ), 1, 1].length = 2 + 1) ∧
      generate [(1 : ℝ), 1, 1] [(1 : ℝ), 1, 1] [(0 : ℝ), 0, 0]
          (fun _ _ _ => 0) (fun _ _ => 0) (fun _ : Unit => 0) 2 =
        generate_spec_rec [(1 : ℝ), 1, 1] [(1 : ℝ), 1, 1] [(0 : ℝ), 0, 0]
          (fun _ _ _ => 0) (fun _ _ => 0) (2 - 1) (fun _ : Unit => 0) :=
  ⟨by norm_num, rfl,
    c1_generate_matches_spec _ _ _ _ _ _ 2 (by norm_num) rfl rfl rfl⟩

/-- C2: the forward corruption in `prepare_batch` is the single closed-form
blend `sqrt (alpha_bar[t]) * X + sqrt (1 - alpha_bar[t]) * noise` applied to
the scaled sample, and every drawable step index `t` lies in `[1, T]`, so
step `0` is never sampled as a training target. -/
theorem c2_forward_corruption_closed_form (alpha_cumprod : List ℝ) (T : ℕ)
    (x noise : ℝ) (t : ℕ) (ht : t ∈ t_draw_support T) :
    (1 ≤ t ∧ t ≤ T ∧ t ≠ 0) ∧
      prepare_batch_noisy alpha_cumprod x t noise =
        Real.sqrt (alpha_cumprod.getD t 0) * scale_pixel x +
          Real.sqrt (1 - alpha_cumprod.getD t 0) * noise := by
  rw [t_draw_support, Finset.mem_Icc] at ht
  exact ⟨⟨ht.1, ht.2, by omega⟩, rfl⟩

/-- Witness for C2 at `T = 3`, `t = 2`. -/
theorem c2_forward_corruption_closed_form_witness :
    2 ∈ t_draw_support 3 ∧
      ((1 ≤ 2 ∧ 2 ≤ 3 ∧ 2 ≠ 0) ∧
        prepare_batch_noisy [(1 : ℝ)] 0 2 0 =
          Real.sqrt ([(1 : ℝ)].getD 2 0) * scale_pixel 0 +
            Real.sqrt (1 - [(1 : ℝ)].getD 2 0) * 0) :=
  ⟨by decide, c2_forward_corruption_closed_form [(1 : ℝ)] 3 0 0 2 (by decide)⟩

/-- C3: round trip — for every `x`, every `t` in `[1, T]` and every noise
value, `subtract_noise` applied to the output of the forward blend `corrupt`
with the same `t` and noise recovers `x` exactly in real arithmetic, over
the cosine schedule's `alpha_cumprod`. -/
theorem c3_decorrupt_round_trip (T : ℕ) (s mb : ℝ) (h0 : 0 < mb) (h1 : mb < 1)
    (t : ℕ) (ht1 : 1 ≤ t) (ht2 : t ≤ T) (x noise : ℝ) :
    subtract_noise (variance_schedule T s mb).2.1 t
      (corrupt (variance_schedule T s mb).2.1 t x noise) noise = x := by
  have hmem := var_alpha_mem T s mb h0 h1
  have hlen := var_alpha_length T s mb
  have hpos : 0 < (variance_schedule T s mb).2.1.getD t 0 := by
    show 0 < (cumprod (variance_alpha T s mb)).getD t 0
    exact (cumprod_bounds _ hmem t (by omega)).1
  have hs : Real.sqrt ((variance_schedule T s mb).2.1.getD t 0) ≠ 0 :=
    ne_of_gt (Real.sqrt_pos.mpr hpos)
  unfold subtract_noise corrupt
  rw [add_sub_cancel_right]
  exact mul_div_cancel_left₀ x hs

/-- Witness for C3 at `T = 1`, `t = 1`, `x = 5`, `noise = 7`. -/
theorem c3_decorrupt_round_trip_witness :
    (0 < (1 / 2 : ℝ)) ∧ ((1 / 2 : ℝ) < 1) ∧ (1 ≤ 1) ∧ (1 ≤ 1) ∧
      subtract_noise (variance_schedule 1 0 (1 / 2)).2.1 1
        (corrupt (variance_schedule 1 0 (1 / 2)).2.1 1 5 7) 7 = 5 :=
  ⟨by norm_num, by norm_num, le_refl 1, le_refl 1,
    c3_decorrupt_round_trip 1 0 (1 / 2) (by norm_num) (by norm_num) 1
      (le_refl 1) (le_refl 1) 5 7⟩

/-- C5: for every valid `T`, `s`, `max_beta`, both the cosine and the linear
schedule satisfy `alpha_bar[0] = 1`, the recurrence
`alpha_bar[t] = alpha_bar[t-1] * alpha[t]` for every `t ≥ 1`, and
`alpha_bar` is monotonically non-increasing and stays in `(0, 1]`. -/
theorem c5_alpha_bar_invariants (T : ℕ) (s mb : ℝ) (hT : 1 ≤ T)
    (h0 : 0 < mb) (h1 : mb < 1) :
    schedule_invariants (variance_schedule T s mb) ∧
      schedule_invariants (linear_schedule T s mb) := by
  constructor
  · show schedule_invariants (variance_alpha T s mb,
      cumprod (variance_alpha T s mb), (variance_alpha T s mb).map (fun a => 1 - a))
    exact schedule_invariants_of_alpha _ rfl (by simp [variance_alpha])
      (var_alpha_mem T s mb h0 h1)
  · show schedule_invariants (linear_alpha T mb,
      cumprod (linear_alpha T mb), (linear_alpha T mb).map (fun a => 1 - a))
    exact schedule_invariants_of_alpha _ rfl (by simp [linear_alpha])
      (lin_alpha_mem T mb h0 h1)

/-- Witness for C5 at `T = 1`, `s = 0`, `max_beta = 1/2`. -/
theorem c5_alpha_bar_invariants_witness :
    1 ≤ 1 ∧ (0 < (1 / 2 : ℝ)) ∧ ((1 / 2 : ℝ) < 1) ∧
      (schedule_invariants (variance_schedule 1 0 (1 / 2)) ∧
        schedule_invariants (linear_schedule 1 0 (1 / 2))) :=
  ⟨le_refl 1, by norm_num, by norm_num,
    c5_alpha_bar_invariants 1 0 (1 / 2) (le_refl 1) (by norm_num) (by norm_num)⟩

/-- C7: with the external predictor returning the all-zero tensor and the
re-noising draw forced to zero at every step, the reverse sampler's final
output equals the initial sample scaled by the product of
`1 / sqrt (alpha[t])` over `t = T-1` down to `1`. -/
theorem c7_zero_predictor_scaling {ι : Type} (alpha alpha_cumprod beta : List ℝ)
    (X_start : ι → ℝ) (T : ℕ) (p : ι) :
    generate alpha alpha_cumprod beta (fun _ _ _ => 0) (fun _ _ => 0) X_start T p =
      (∏ t ∈ Finset.Icc 1 (T - 1), 1 / Real.sqrt (alpha.getD t 0)) * X_start p := by
  have h := gen_foldl_eq_rec alpha alpha_cumprod beta
    (fun _ _ _ => 0) (fun _ _ => 0) (T - 1) X_start
  unfold generate
  rw [h]
  exact spec_rec_zero_pred alpha alpha_cumprod beta (T - 1) X_start p

/-- C4 (code evaluation): the cosine schedule's arrays have length `T + 1`
as claimed, but the linear schedule's arrays have length `T + 2`, because
`linear_schedule` prepends `alpha_0 = 1` to an array that already has
`T + 1` clipped entries, contradicting the source's own comment that the
returned arrays cover `t = 0` to `T`. -/
theorem c4_schedule_lengths (T : ℕ) (s mb : ℝ) :
    ((variance_schedule T s mb).1.length = T + 1 ∧
      (variance_schedule T s mb).2.1.length = T + 1 ∧
      (variance_schedule T s mb).2.2.length = T + 1) ∧
      ((linear_schedule T s mb).1.length = T + 2 ∧
        (linear_schedule T s mb).2.1.length = T + 2 ∧
        (linear_schedule T s mb).2.2.length = T + 2) := by
  refine ⟨⟨?_, ?_, ?_⟩, ?_, ?_, ?_⟩ <;>
    simp [variance_schedule, linear_schedule, cumprod_length,
      variance_alpha, linear_alpha]

/-- C6 (code evaluation at the claimed input): with `T = 10`,
`step_scale = 0.005` (hardcoded) and `max_beta = 0.999`, the linear
schedule's `alpha[10]` is `0.9955` and `beta[10]` is `0.0045`, not the
claimed `0.995` and `0.005`; the claimed values sit at index `11` because of
the extra prepended entry. -/
theorem c6_linear_values_at_T10 :
    (linear_schedule 10 (8 / 1000) (999 / 1000)).1.getD 10 0 = 9955 / 10000 ∧
      (linear_schedule 10 (8 / 1000) (999 / 1000)).2.2.getD 10 0 = 45 / 10000 ∧
      (linear_schedule 10 (8 / 1000) (999 / 1000)).1.getD 11 0 = 995 / 1000 := by
  have h10 : (linear_alpha 10 (999 / 1000)).getD 10 0 = 9955 / 10000 := by
    show (linear_alpha 10 (999 / 1000)).getD (9 + 1) 0 = 9955 / 10000
    rw [lin_alpha_getD_succ 10 (999 / 1000) 9 (by omega)]
    unfold np_clip
    rw [max_eq_left (by norm_num), min_eq_left (by norm_num)]
    norm_num
  have h11 : (linear_alpha 10 (999 / 1000)).getD 11 0 = 995 / 1000 := by
    show (linear_alpha 10 (999 / 1000)).getD (10 + 1) 0 = 995 / 1000
    rw [lin_alpha_getD_succ 10 (999 / 1000) 10 (by omega)]
    unfold np_clip
    rw [max_eq_left (by norm_num), min_eq_left (by norm_num)]
    norm_num
  refine ⟨h10, ?_, h11⟩
  show ((linear_alpha 10 (999 / 1000)).map (fun a => 1 - a)).getD 10 0 = 45 / 10000
  rw [getD_map_one_sub _ 10 (by rw [lin_alpha_length]; omega), h10]
  norm_num

/-- C8 counterexample: the claim says schedule computation fails when
`T < 1` or `max_beta` lies outside `(0, 1)`, but `variance_schedule` has no
validation and returns a normal value for `T = 0` and for `max_beta = 2`. -/
theorem c8_no_schedule_validation_counterexample :
    exceptOk (variance_schedule_run 0 (8 / 1000) (999 / 1000)) = true ∧
      exceptOk (variance_schedule_run 10 (8 / 1000) 2) = true :=
  ⟨rfl, rfl⟩

/-- C8 (amended): only the time-encoding construction validates its
configuration eagerly — `TimeEncoding.__init__` fails exactly when
`embed_size` is odd — while `variance_schedule` performs no validation of
`T` or `max_beta` and returns a normal value on every input. -/
theorem c8_eager_validation :
    (∀ T embed_size : ℕ,
        exceptOk (TimeEncoding_init T embed_size) = true ↔ embed_size % 2 = 0) ∧
      (∀ (T : ℕ) (s mb : ℝ), exceptOk (variance_schedule_run T s mb) = true) := by
  constructor
  · intro T e
    unfold TimeEncoding_init
    split
    case isTrue h => simp [exceptOk, h]
    case isFalse h => simp [exceptOk, h]
  · intro T s mb
    rfl

/-- C9: for `T ≥ 1` and even `embed_size`, the time-encoding table has
`T + 1` rows of width `embed_size`; in row `t`, even column `2i` holds
`sin (t / 10000 ^ (2i / embed_size))` and odd column `2i + 1` holds
`cos (t / 10000 ^ (2i / embed_size))` for `i = 0 .. embed_size/2 - 1`; in
particular row `0` is the alternating pattern `0, 1, 0, 1, ...`. -/
theorem c9_time_encoding_table (T embed_size : ℕ) (hT : 1 ≤ T)
    (he : embed_size % 2 = 0) :
    (time_encodings T embed_size).length = T + 1 ∧
      (∀ row ∈ time_encodings T embed_size, row.length = embed_size) ∧
      (∀ t, t ≤ T → ∀ i, i < embed_size / 2 →
        ((time_encodings T embed_size).getD t []).getD (2 * i) 0 =
            Real.sin ((t : ℝ) /
              (10000 : ℝ) ^ (((2 * i : ℕ) : ℝ) / (embed_size : ℝ))) ∧
          ((time_encodings T embed_size).getD t []).getD (2 * i + 1) 0 =
            Real.cos ((t : ℝ) /
              (10000 : ℝ) ^ (((2 * i : ℕ) : ℝ) / (embed_size : ℝ)))) ∧
      (∀ c, c < embed_size →
        ((time_encodings T embed_size).getD 0 []).getD c 0 =
          if c % 2 = 0 then 0 else 1) := by
  have hrow : ∀ t, t ≤ T → (time_encodings T embed_size).getD t [] =
      (List.range embed_size).map fun (c : ℕ) =>
        if c % 2 = 0 then
          Real.sin ((t : ℝ) /
            (10000 : ℝ) ^ (((2 * (c / 2) : ℕ) : ℝ) / (embed_size : ℝ)))
        else
          Real.cos ((t : ℝ) /
            (10000 : ℝ) ^ (((2 * (c / 2) : ℕ) : ℝ) / (embed_size : ℝ))) := by
    intro t ht
    unfold time_encodings
    rw [getD_map_range _ _ _ _ (by omega)]
  refine ⟨by simp [time_encodings], ?_, ?_, ?_⟩
  · intro row hrow_mem
    unfold time_encodings at hrow_mem
    obtain ⟨t, _, rfl⟩ := List.mem_map.mp hrow_mem
    simp
  · intro t ht i hi
    rw [hrow t ht]
    constructor
    · rw [getD_map_range _ _ _ _ (by omega)]
      have h2 : 2 * i % 2 = 0 := by omega
      have h3 : 2 * (2 * i / 2) = 2 * i := by omega
      simp only [h2, h3, if_pos]
    · rw [getD_map_range _ _ _ _ (by omega)]
      have h2 : ¬((2 * i + 1) % 2 = 0) := by omega
      have h3 : 2 * ((2 * i + 1) / 2) = 2 * i := by omega
      simp only [h3, if_neg h2]
  · intro c hc
    rw [hrow 0 (by omega), getD_map_range _ _ _ _ hc]
    by_cases hc2 : c % 2 = 0 <;> simp [hc2]

/-- Witness for C9 at `T = 1`, `embed_size = 2`. -/
theorem c9_time_encoding_table_witness :
    1 ≤ 1 ∧ 2 % 2 = 0 ∧
      ((time_encodings 1 2).length = 1 + 1 ∧
        (∀ row ∈ time_encodings 1 2, row.length = 2) ∧
        (∀ t, t ≤ 1 → ∀ i, i < 2 / 2 →
          ((time_encodings 1 2).getD t []).getD (2 * i) 0 =
              Real.sin ((t : ℝ) / (10000 : ℝ) ^ (((2 * i : ℕ) : ℝ) / (2 : ℝ))) ∧
            ((time_encodings 1 2).getD t []).getD (2 * i + 1) 0 =
              Real.cos ((t : ℝ) / (10000 : ℝ) ^ (((2 * i : ℕ) : ℝ) / (2 : ℝ)))) ∧
        (∀ c, c < 2 →
          ((time_encodings 1 2).getD 0 []).getD c 0 =
            if c % 2 = 0 then 0 else 1)) :=
  ⟨le_refl 1, rfl, c9_time_encoding_table 1 2 (le_refl 1) rfl⟩

/-- C10: for `T ≥ 2`, `s ≥ 0` and `max_beta` in `(0, 1)`, the cosine
schedule keeps `alpha[t]` at least `1 - max_beta > 0` and `alpha_bar[t]`
strictly below `1` for every `t` in `[1, T - 1]`, so both divisors
`sqrt (alpha[t])` and `sqrt (1 - alpha_bar[t])` used by the reverse
sampler's update are strictly positive. -/
theorem c10_sampler_division_safety (T : ℕ) (s mb : ℝ) (hT : 2 ≤ T)
    (hs : 0 ≤ s) (h0 : 0 < mb) (h1 : mb < 1) (t : ℕ) (ht1 : 1 ≤ t)
    (ht2 : t ≤ T - 1) :
    (0 < 1 - mb ∧ 1 - mb ≤ (variance_schedule T s mb).1.getD t 0) ∧
      (variance_schedule T s mb).2.1.getD t 0 < 1 ∧
      0 < Real.sqrt ((variance_schedule T s mb).1.getD t 0) ∧
      0 < Real.sqrt (1 - (variance_schedule T s mb).2.1.getD t 0) := by
  have hT1 : 1 ≤ T := by omega
  have halpha : 1 - mb ≤ (variance_schedule T s mb).1.getD t 0 := by
    show 1 - mb ≤ (variance_alpha T s mb).getD t 0
    obtain ⟨k, rfl⟩ := Nat.exists_eq_add_of_le ht1
    have hk : 1 + k = k + 1 := by omega
    rw [hk, var_alpha_getD_succ T s mb k (by omega)]
    exact (np_clip_bounds _ _ (by linarith) (by linarith)).1
  have habar : (variance_schedule T s mb).2.1.getD t 0 < 1 := by
    show (cumprod (variance_alpha T s mb)).getD t 0 < 1
    exact var_abar_lt_one T s mb hT1 hs h0 h1 t ht1 (by omega)
  refine ⟨⟨by linarith, halpha⟩, habar, ?_, ?_⟩
  · exact Real.sqrt_pos.mpr (by linarith)
  · exact Real.sqrt_pos.mpr (by linarith)

/-- Witness for C10 at `T = 2`, `s = 0`, `max_beta = 1/2`, `t = 1`. -/
theorem c10_sampler_division_safety_witness :
    2 ≤ 2 ∧ ((0 : ℝ) ≤ 0) ∧ (0 < (1 / 2 : ℝ)) ∧ ((1 / 2 : ℝ) < 1) ∧
      1 ≤ 1 ∧ 1 ≤ 2 - 1 ∧
      ((0 < 1 - (1 / 2 : ℝ) ∧
          1 - (1 / 2 : ℝ) ≤ (variance_schedule 2 0 (1 / 2)).1.getD 1 0) ∧
        (variance_schedule 2 0 (1 / 2)).2.1.getD 1 0 < 1 ∧
        0 < Real.sqrt ((variance_schedule 2 0 (1 / 2)).1.getD 1 0) ∧
        0 < Real.sqrt (1 - (variance_schedule 2 0 (1 / 2)).2.1.getD 1 0)) :=
  ⟨le_refl 2, le_refl 0, by norm_num, by norm_num, le_refl 1, by norm_num,
    c10_sampler_division_safety 2 0 (1 / 2) (le_refl 2) (le_refl 0)
      (by norm_num) (by norm_num) 1 (le_refl 1) (by norm_num)⟩

end

end DDPM
